import Mathlib

set_option maxHeartbeats 1000000

/-! Shallow embedding of the gene-reaction-rule classifier, complex
enumerator, deduplicator and monomer set builder of
`scripts/Proteome_processing_multimers/PP_metab_proc.py` (PART 1 and the
data-purification step), together with proofs about them. -/

/-- Whitespace class of the regex `\s`. -/
def isWs (c : Char) : Bool :=
  c == ' ' || c == '\t' || c == '\n' || c == '\r' || c == '\x0b' || c == '\x0c'

/-- Test `isPre needle hay`: `needle` is a prefix of `hay`. -/
def isPre : List Char → List Char → Bool
  | [], _ => true
  | _ :: _, [] => false
  | a :: as, b :: bs => a == b && isPre as bs

/-- Python's `needle in hay` substring test. -/
def hasSubL (needle : List Char) : List Char → Bool
  | [] => isPre needle []
  | c :: t => isPre needle (c :: t) || hasSubL needle t

/-- Python's `needle in hay` on strings. -/
def hasSub (hay needle : String) : Bool := hasSubL needle.data hay.data

/-- Worker for `splitStr`; the fuel is one more than the remaining length. -/
def splitGo (sep : List Char) : Nat → List Char → List Char → List (List Char)
  | 0, acc, rest => [acc.reverse ++ rest]
  | fuel + 1, acc, cs =>
    if isPre sep cs then
      acc.reverse :: splitGo sep fuel [] (cs.drop sep.length)
    else
      match cs with
      | [] => [acc.reverse]
      | c :: t => splitGo sep fuel (c :: acc) t

/-- Python's `s.split(sep)` for a non-empty literal separator. -/
def splitStr (s sep : String) : List String :=
  (splitGo sep.data (s.data.length + 1) [] s.data).map (fun l => ⟨l⟩)

/-- Try `PP_\d{4}` at the start of `cs`; on success return the matched
characters and the rest. -/
def tryPP (cs : List Char) : Option (List Char × List Char) :=
  match cs with
  | 'P' :: 'P' :: '_' :: rest =>
    match rest with
    | a :: b :: c :: d :: rest2 =>
      if a.isDigit && b.isDigit && c.isDigit && d.isDigit then
        some (['P', 'P', '_', a, b, c, d], rest2)
      else none
    | _ => none
  | _ => none

/-- Try `pWW0_\d+` (greedy digits) at the start of `cs`. -/
def tryPW (cs : List Char) : Option (List Char × List Char) :=
  match cs with
  | 'p' :: 'W' :: 'W' :: '0' :: '_' :: rest =>
    if (rest.takeWhile Char.isDigit).isEmpty then none
    else some ('p' :: 'W' :: 'W' :: '0' :: '_' :: rest.takeWhile Char.isDigit,
               rest.dropWhile Char.isDigit)
  | _ => none

/-- One attempt of the regex `PP_\d{4}|pWW0_\d+` at the start of `cs`
(the first alternative is tried first, as `re` does). -/
def tryTok (cs : List Char) : Option (List Char × List Char) :=
  match tryPP cs with
  | some r => some r
  | none => tryPW cs

/-- Scanning worker for `findall`: at each position try the token regex;
on success continue after the match, otherwise advance one character. -/
def scanTok : Nat → List Char → List String
  | 0, _ => []
  | _ + 1, [] => []
  | fuel + 1, c :: cs =>
    match tryTok (c :: cs) with
    | some (tok, rest) => (⟨tok⟩ : String) :: scanTok fuel rest
    | none => scanTok fuel cs

/-- Python's `re.findall('PP_\d{4}|pWW0_\d+', s)`. -/
def findall (s : String) : List String := scanTok s.data.length s.data

/-- Truthiness of `re.match('PP_\d{4}|pWW0_\d+', s)`: the regex matches at
the start of `s` (not necessarily the whole of `s`). -/
def matchStart (s : String) : Bool := (tryTok s.data).isSome

/-- Whether `s` is exactly one well-formed identifier: the token regex consumes the
whole of `s`. -/
def isWellFormed (s : String) : Bool :=
  match tryTok s.data with
  | some (_, []) => true
  | _ => false

/-- Python's `s.strip()`. -/
def pyStrip (s : String) : String :=
  ⟨((s.data.dropWhile isWs).reverse.dropWhile isWs).reverse⟩

/-- Python's `s.replace('(', '').replace(')', '')`. -/
def removeParens (s : String) : String :=
  ⟨s.data.filter (fun c => !(c == '(') && !(c == ')'))⟩

/-- Length of the leading whitespace run. -/
def wsLen (cs : List Char) : Nat := (cs.takeWhile isWs).length

/-- Match length of `\)\s*or\s*` at the start of `cs`. -/
def tryB1 : List Char → Option Nat
  | ')' :: rest =>
    let n1 := wsLen rest
    match rest.drop n1 with
    | 'o' :: 'r' :: rest2 => some (1 + n1 + 2 + wsLen rest2)
    | _ => none
  | _ => none

/-- Match length of `\s*or\s*\(` at the start of `cs`. -/
def tryB2 (cs : List Char) : Option Nat :=
  let n0 := wsLen cs
  match cs.drop n0 with
  | 'o' :: 'r' :: rest =>
    let n1 := wsLen rest
    match rest.drop n1 with
    | '(' :: _ => some (n0 + 2 + n1 + 1)
    | _ => none
  | _ => none

/-- Match length of `\)\s*or\s*|\s*or\s*\(` at the start of `cs`. -/
def tryBd (cs : List Char) : Option Nat :=
  match tryB1 cs with
  | some n => some n
  | none => tryB2 cs

/-- Worker for `regexSplit`. -/
def rsGo : Nat → List Char → List Char → List (List Char)
  | 0, acc, rest => [acc.reverse ++ rest]
  | fuel + 1, acc, cs =>
    match tryBd cs with
    | some n => acc.reverse :: rsGo fuel [] (cs.drop n)
    | none =>
      match cs with
      | [] => [acc.reverse]
      | c :: t => rsGo fuel (c :: acc) t

/-- Python's `re.split(r'\)\s*or\s*|\s*or\s*\(', s)` (the Opt 4 splitter). -/
def regexSplit (s : String) : List String :=
  (rsGo (s.data.length + 1) [] s.data).map (fun l => ⟨l⟩)

/-- Code-point lexicographic `a <= b` on character lists, as Python
compares strings. -/
def lexLe : List Char → List Char → Bool
  | [], _ => true
  | _ :: _, [] => false
  | a :: as, b :: bs =>
    if a.toNat < b.toNat then true
    else if b.toNat < a.toNat then false
    else lexLe as bs

/-- Python's `a <= b` on strings. -/
def strLe (a b : String) : Bool := lexLe a.data b.data

/-- Insert `x` into an already sorted list. -/
def insertOrd (x : String) : List String → List String
  | [] => [x]
  | y :: ys => if strLe x y then x :: y :: ys else y :: insertOrd x ys

/-- Python's `sorted` on a list of strings. -/
def insSort : List String → List String
  | [] => []
  | x :: xs => insertOrd x (insSort xs)

/-- Python's `tuple(sorted(c))`: the canonical (sorted) form of a complex. -/
def canon (c : List String) : List String := insSort c

/-- The deduplication loop building `unique_complexes`, with the
accumulated output list. -/
def dedupAux : List (List String) → List (List String) → List (List String)
  | acc, [] => acc
  | acc, c :: cs =>
    if canon c ∈ acc then dedupAux acc cs
    else dedupAux (acc ++ [canon c]) cs

/-- The data-purification deduplication: canonicalize every complex and
keep the first occurrence of each canonical form. -/
def dedup (l : List (List String)) : List (List String) := dedupAux [] l

/-- Python's `itertools.product(*axes)` over lists: the product of zero axes is the
single empty tuple. -/
def prodL : List (List String) → List (List String)
  | [] => [[]]
  | a :: rest => (a.map (fun x => (prodL rest).map (fun t => x :: t))).flatten

/-- The comprehension `[list(t) + perma_flat for t in product(*variable_prot)]` with
`perma_flat` the flattening of the fixed groups. -/
def cartExtend (perma var : List (List String)) : List (List String) :=
  (prodL var).map (fun t => t ++ perma.flatten)

/-- The fixed/variable segment loop shared by the Opt 2 branch and its
copies: a segment without `or` extends the fixed groups, a segment with
`or` extends the variable axes. -/
def opt2go (p v : List (List String)) : List String → List (List String) × List (List String)
  | [] => (p, v)
  | el :: rest =>
    if hasSub el "or" then opt2go p (v ++ [findall el]) rest
    else opt2go (p ++ [findall el]) v rest

/-- The mutable state of PART 1: the monomer list, the complex list and
the module-level `variable_prot` name (`none` while it has never been
assigned; referencing it then raises Python's `NameError`). -/
structure CState where
  monomers : List String
  complexes : List (List String)
  varProt : Option (List (List String))
deriving DecidableEq

/-- One iteration of the monomer loop (first `for ID in genes`): rules
without `and` are split on `' or '`, segments whose start matches the
identifier regex are stripped, stripped of parentheses and appended if
not already present. -/
def monStep (ms : List String) (ID : String) : List String :=
  if hasSub ID "and" then ms
  else
    ((splitStr ID " or ").filter (fun x => matchStart x)).foldl
      (fun acc m =>
        let m2 := removeParens (pyStrip m)
        if m2 ∈ acc then acc else acc ++ [m2])
      ms

/-- The Opt 3 nested loop over the `') or ('` segments when some segment
still contains `or`. -/
def opt3go : CState → List String → Except String CState
  | s, [] => .ok s
  | s, el :: rest =>
    if hasSub el "or" && !(hasSub el "and") then
      match s.varProt with
      | none => .error "NameError: name variable_prot is not defined"
      | some vp => opt3go { s with varProt := some (vp ++ [findall el]) } rest
    else if hasSub el "or" && hasSub el "and" then
      opt3go { s with
        complexes := s.complexes ++
          cartExtend (opt2go [] [] (splitStr el "and")).1
            (opt2go [] [] (splitStr el "and")).2,
        varProt := some (opt2go [] [] (splitStr el "and")).2 } rest
    else
      opt3go { s with complexes := s.complexes ++ [findall el] } rest

/-- The inner Opt 4 loop over `element.split('or')`: both lists are reset
for each piece, exactly one of them receives the piece's matches, and the
cartesian product is extended. -/
def opt4sub : CState → List String → CState
  | s, [] => s
  | s, el2 :: rest =>
    if !(hasSub el2 "or") then
      opt4sub { s with complexes := s.complexes ++ cartExtend [findall el2] [],
                       varProt := some [] } rest
    else
      opt4sub { s with complexes := s.complexes ++ cartExtend [] [findall el2],
                       varProt := some [findall el2] } rest

/-- The Opt 4 loop over the pieces of the `') or' / 'or ('` regex split.
The first branch's extend is guarded in the source by
`if r not in monomers`, which tests the list `r` for membership among the
string entries of `monomers` and therefore never blocks the extend. -/
def opt4go : CState → List String → CState
  | s, [] => s
  | s, el :: rest =>
    if !(hasSub el "or") && !(hasSub el "and") then
      opt4go { s with monomers := s.monomers ++ findall el } rest
    else if !(hasSub el "or") then
      opt4go { s with complexes := s.complexes ++ [findall el] } rest
    else if hasSub el "or" && !(hasSub el "and") then
      opt4go { s with monomers :=
          s.monomers ++ (findall el).filter (fun m => !(s.monomers.contains m)) } rest
    else
      opt4go (opt4sub s (splitStr el "or")) rest

/-- One iteration of the complex loop (second `for ID in genes`), the
four-way branch on the shape of the rule. -/
def complexStep (st : CState) (ID : String) : Except String CState :=
  if !(hasSub ID "and") then .ok st
  else if !(hasSub ID "or") then
    .ok { st with complexes := st.complexes ++ [findall ID] }
  else if hasSub ID " or " && !(hasSub ID ") or") && !(hasSub ID "or (") then
    .ok { st with
      complexes := st.complexes ++
        cartExtend (opt2go [] [] (splitStr ID " and ")).1
          (opt2go [] [] (splitStr ID " and ")).2,
      varProt := some (opt2go [] [] (splitStr ID " and ")).2 }
  else if hasSub ID ") or (" then
    if (splitStr ID ") or (").all (fun x => !(hasSub x "or")) then
      .ok { st with complexes := st.complexes ++ (splitStr ID ") or (").map findall }
    else opt3go st (splitStr ID ") or (")
  else
    .ok (opt4go { st with varProt := some [] } (regexSplit ID))

/-- The complex loop over all rules. -/
def complexLoop : CState → List String → Except String CState
  | st, [] => .ok st
  | st, ID :: rest =>
    match complexStep st ID with
    | .error e => .error e
    | .ok st2 => complexLoop st2 rest

/-- The whole PART 1 computation: the monomer loop over all rules, then
the complex loop, then the data purification (drop empty complexes and
deduplicate). -/
def pipeline (genes : List String) : Except String (List String × List (List String)) :=
  match complexLoop { monomers := genes.foldl monStep [], complexes := [],
                      varProt := none } genes with
  | .error e => .error e
  | .ok st => .ok (st.monomers, dedup (st.complexes.filter (fun c => !c.isEmpty)))

/-- Python's `'-'.join(com)`, the stem of a complex's fasta filename. -/
def joinDash (c : List String) : String := String.intercalate "-" c

/-- Spec-side definition, following the spec's words: keep the first
occurrence of each element, in order ("order of first occurrence is
preserved in the output sequence"). -/
def firstOcc (seen : List (List String)) : List (List String) → List (List String)
  | [] => []
  | x :: xs => if x ∈ seen then firstOcc seen xs else x :: firstOcc (seen ++ [x]) xs

/-! ### Order lemmas for the canonical (sorted) form -/

/-- Sortedness under the embedded Python string order. -/
abbrev SortedLe (l : List String) : Prop := l.Pairwise (fun a b => strLe a b = true)

theorem lexLe_total (a b : List Char) : lexLe a b = true ∨ lexLe b a = true := by
  induction a generalizing b with
  | nil => left; rfl
  | cons x xs ih =>
    cases b with
    | nil => right; rfl
    | cons y ys =>
      by_cases h1 : x.toNat < y.toNat
      · left; simp [lexLe, h1]
      · by_cases h2 : y.toNat < x.toNat
        · right; simp [lexLe, h2]
        · rcases ih ys with h | h
          · left; simp [lexLe, h1, h2, h]
          · right; simp [lexLe, h1, h2, h]

theorem lexLe_trans {a b c : List Char} (h1 : lexLe a b = true)
    (h2 : lexLe b c = true) : lexLe a c = true := by
  induction a generalizing b c with
  | nil => rfl
  | cons x xs ih =>
    cases b with
    | nil => simp [lexLe] at h1
    | cons y ys =>
      cases c with
      | nil => simp [lexLe] at h2
      | cons z zs =>
        simp only [lexLe] at h1 h2 ⊢
        by_cases hxy : x.toNat < y.toNat
        · by_cases hyz : y.toNat < z.toNat
          · simp [Nat.lt_trans hxy hyz]
          · by_cases hzy : z.toNat < y.toNat
            · simp [hyz, hzy] at h2
            · have hyzeq : y.toNat = z.toNat :=
                Nat.le_antisymm (Nat.not_lt.mp hzy) (Nat.not_lt.mp hyz)
              simp [hyzeq ▸ hxy]
        · by_cases hyx : y.toNat < x.toNat
          · simp [hxy, hyx] at h1
          · have hxyeq : x.toNat = y.toNat :=
              Nat.le_antisymm (Nat.not_lt.mp hyx) (Nat.not_lt.mp hxy)
            simp [hxy, hyx] at h1
            by_cases hyz : y.toNat < z.toNat
            · simp [hxyeq ▸ hyz]
            · by_cases hzy : z.toNat < y.toNat
              · simp [hyz, hzy] at h2
              · simp [hyz, hzy] at h2
                have hxz : ¬ x.toNat < z.toNat := by omega
                have hzx : ¬ z.toNat < x.toNat := by omega
                simp [hxz, hzx, ih h1 h2]

theorem strLe_total (a b : String) : strLe a b = true ∨ strLe b a = true :=
  lexLe_total a.data b.data

theorem strLe_trans {a b c : String} (h1 : strLe a b = true)
    (h2 : strLe b c = true) : strLe a c = true :=
  lexLe_trans h1 h2

theorem mem_insertOrd {z x : String} {l : List String} :
    z ∈ insertOrd x l ↔ z = x ∨ z ∈ l := by
  induction l with
  | nil => simp [insertOrd]
  | cons y ys ih =>
    cases h : strLe x y with
    | true => simp [insertOrd, h, List.mem_cons]
    | false => simp [insertOrd, h, List.mem_cons, ih]; tauto

theorem sorted_insertOrd {x : String} {l : List String} (h : SortedLe l) :
    SortedLe (insertOrd x l) := by
  induction l with
  | nil => simp [insertOrd, SortedLe]
  | cons y ys ih =>
    rcases List.pairwise_cons.mp h with ⟨hy, hys⟩
    cases hxy : strLe x y with
    | true =>
      simp only [insertOrd, hxy, if_pos]
      exact List.pairwise_cons.mpr
        ⟨fun z hz => by
          rcases List.mem_cons.mp hz with rfl | hz
          · exact hxy
          · exact strLe_trans hxy (hy z hz), h⟩
    | false =>
      simp only [insertOrd, hxy, Bool.false_eq_true, if_false]
      refine List.pairwise_cons.mpr ⟨fun z hz => ?_, ih hys⟩
      rcases mem_insertOrd.mp hz with rfl | hz
      · rcases strLe_total z y with hzy | hyz
        · rw [hxy] at hzy; exact absurd hzy (by simp)
        · exact hyz
      · exact hy z hz

theorem sorted_insSort (l : List String) : SortedLe (insSort l) := by
  induction l with
  | nil => simp [insSort, SortedLe]
  | cons x xs ih => exact sorted_insertOrd ih

theorem insSort_of_sorted {l : List String} (h : SortedLe l) : insSort l = l := by
  induction l with
  | nil => rfl
  | cons x xs ih =>
    rcases List.pairwise_cons.mp h with ⟨hx, hxs⟩
    show insertOrd x (insSort xs) = x :: xs
    rw [ih hxs]
    cases xs with
    | nil => rfl
    | cons y ys => simp [insertOrd, hx y (List.mem_cons_self y ys)]

theorem canon_idem (c : List String) : canon (canon c) = canon c :=
  insSort_of_sorted (sorted_insSort c)

theorem mem_insSort {z : String} {l : List String} : z ∈ insSort l ↔ z ∈ l := by
  induction l with
  | nil => simp [insSort]
  | cons x xs ih =>
    show z ∈ insertOrd x (insSort xs) ↔ _
    rw [mem_insertOrd]
    simp [ih, List.mem_cons]

theorem length_insertOrd (x : String) (l : List String) :
    (insertOrd x l).length = l.length + 1 := by
  induction l with
  | nil => rfl
  | cons y ys ih =>
    cases h : strLe x y with
    | true => simp [insertOrd, h]
    | false => simp [insertOrd, h, ih]

theorem length_canon (c : List String) : (canon c).length = c.length := by
  show (insSort c).length = c.length
  induction c with
  | nil => rfl
  | cons x xs ih => show (insertOrd x (insSort xs)).length = _; simp [length_insertOrd, ih]

/-! ### Deduplicator lemmas -/

theorem dedupAux_sub {acc l : List (List String)} {d : List String}
    (h : d ∈ acc) : d ∈ dedupAux acc l := by
  induction l generalizing acc with
  | nil => exact h
  | cons c cs ih =>
    show d ∈ (if canon c ∈ acc then dedupAux acc cs else dedupAux (acc ++ [canon c]) cs)
    by_cases hc : canon c ∈ acc
    · rw [if_pos hc]; exact ih h
    · rw [if_neg hc]; exact ih (List.mem_append_left _ h)

theorem canon_mem_dedupAux {acc l : List (List String)} {c : List String}
    (h : c ∈ l) : canon c ∈ dedupAux acc l := by
  induction l generalizing acc with
  | nil => cases h
  | cons c0 cs ih =>
    show canon c ∈
      (if canon c0 ∈ acc then dedupAux acc cs else dedupAux (acc ++ [canon c0]) cs)
    rcases List.mem_cons.mp h with rfl | h
    · by_cases hc : canon c ∈ acc
      · rw [if_pos hc]; exact dedupAux_sub hc
      · rw [if_neg hc]
        exact dedupAux_sub (List.mem_append_right _ (List.mem_singleton_self _))
    · by_cases hc : canon c0 ∈ acc
      · rw [if_pos hc]; exact ih h
      · rw [if_neg hc]; exact ih h

theorem mem_dedupAux {acc l : List (List String)} {d : List String}
    (h : d ∈ dedupAux acc l) : d ∈ acc ∨ ∃ c, c ∈ l ∧ d = canon c := by
  induction l generalizing acc with
  | nil => exact Or.inl h
  | cons c0 cs ih =>
    have h' : d ∈
        (if canon c0 ∈ acc then dedupAux acc cs else dedupAux (acc ++ [canon c0]) cs) := h
    by_cases hc : canon c0 ∈ acc
    · rw [if_pos hc] at h'
      rcases ih h' with hd | ⟨c, hc1, hc2⟩
      · exact Or.inl hd
      · exact Or.inr ⟨c, List.mem_cons_of_mem _ hc1, hc2⟩
    · rw [if_neg hc] at h'
      rcases ih h' with hd | ⟨c, hc1, hc2⟩
      · rcases List.mem_append.mp hd with hd | hd
        · exact Or.inl hd
        · exact Or.inr ⟨c0, List.mem_cons_self _ _, List.mem_singleton.mp hd⟩
      · exact Or.inr ⟨c, List.mem_cons_of_mem _ hc1, hc2⟩

theorem nodup_append_one {l : List (List String)} {a : List String}
    (h : l.Nodup) (ha : a ∉ l) : (l ++ [a]).Nodup :=
  List.nodup_append.mpr
    ⟨h, List.nodup_singleton a, fun _x hx hx1 =>
      ha ((List.mem_singleton.mp hx1) ▸ hx)⟩

theorem dedupAux_nodup {acc l : List (List String)} (h : acc.Nodup) :
    (dedupAux acc l).Nodup := by
  induction l generalizing acc with
  | nil => exact h
  | cons c cs ih =>
    show (if canon c ∈ acc then dedupAux acc cs else dedupAux (acc ++ [canon c]) cs).Nodup
    by_cases hc : canon c ∈ acc
    · rw [if_pos hc]; exact ih h
    · rw [if_neg hc]; exact ih (nodup_append_one h hc)

theorem dedup_nodup (l : List (List String)) : (dedup l).Nodup :=
  dedupAux_nodup List.nodup_nil

theorem mem_dedup {l : List (List String)} {d : List String}
    (h : d ∈ dedup l) : ∃ c, c ∈ l ∧ d = canon c := by
  rcases mem_dedupAux h with hd | hd
  · cases hd
  · exact hd

theorem canon_mem_dedup {l : List (List String)} {c : List String}
    (h : c ∈ l) : canon c ∈ dedup l :=
  canon_mem_dedupAux h

theorem dedupAux_firstOcc (l : List (List String)) : ∀ acc,
    dedupAux acc l = acc ++ firstOcc acc (l.map canon) := by
  induction l with
  | nil => intro acc; simp [dedupAux, firstOcc]
  | cons c cs ih =>
    intro acc
    show (if canon c ∈ acc then dedupAux acc cs else dedupAux (acc ++ [canon c]) cs) =
      acc ++ firstOcc acc (canon c :: cs.map canon)
    show _ = acc ++ (if canon c ∈ acc then firstOcc acc (cs.map canon)
      else canon c :: firstOcc (acc ++ [canon c]) (cs.map canon))
    by_cases hc : canon c ∈ acc
    · rw [if_pos hc, if_pos hc, ih acc]
    · rw [if_neg hc, if_neg hc, ih (acc ++ [canon c]), List.append_assoc]
      rfl

theorem dedupAux_fixed {m : List (List String)} (h1 : ∀ d ∈ m, canon d = d) :
    ∀ acc, (acc ++ m).Nodup → dedupAux acc m = acc ++ m := by
  induction m with
  | nil => intro acc _; simp [dedupAux]
  | cons d rest ih =>
    intro acc h2
    have hd : canon d = d := h1 d (List.mem_cons_self d rest)
    have hnotin : d ∉ acc := fun hmem =>
      (List.nodup_append.mp h2).2.2 hmem (List.mem_cons_self d rest)
    show (if canon d ∈ acc then dedupAux acc rest else dedupAux (acc ++ [canon d]) rest) =
      acc ++ d :: rest
    rw [hd, if_neg hnotin]
    have h2' : ((acc ++ [d]) ++ rest).Nodup := by
      rw [List.append_assoc]; exact h2
    rw [ih (fun x hx => h1 x (List.mem_cons_of_mem _ hx)) (acc ++ [d]) h2',
      List.append_assoc]
    rfl

theorem count_one_of_nodup {l : List (List String)} {a : List String}
    (hn : l.Nodup) (ha : a ∈ l) : l.count a = 1 := by
  induction l with
  | nil => cases ha
  | cons x xs ih =>
    rcases List.nodup_cons.mp hn with ⟨hx, hxs⟩
    rw [List.count_cons]
    rcases List.mem_cons.mp ha with rfl | ha2
    · simp [List.count_eq_zero.mpr hx]
    · have hne : (x == a) = false := by
        refine beq_eq_false_iff_ne.mpr (fun h => ?_)
        exact hx (h ▸ ha2)
      simp [ih hxs ha2, hne]

theorem opt2go_eq (segs : List String) : ∀ p v,
    opt2go p v segs =
      (p ++ (segs.filter (fun el => !(hasSub el "or"))).map findall,
       v ++ (segs.filter (fun el => hasSub el "or")).map findall) := by
  induction segs with
  | nil => intro p v; simp [opt2go]
  | cons el rest ih =>
    intro p v
    show (if hasSub el "or" then opt2go p (v ++ [findall el]) rest
      else opt2go (p ++ [findall el]) v rest) = _
    cases h : hasSub el "or" with
    | true => simp [h, ih, List.filter_cons, List.append_assoc]
    | false => simp [h, ih, List.filter_cons, List.append_assoc]

/-- Claim C4: the Deduplicator is idempotent: deduplicating its own output
yields the same collection. -/
theorem dedup_idempotent (l : List (List String)) : dedup (dedup l) = dedup l := by
  have h1 : ∀ d ∈ dedup l, canon d = d := by
    intro d hd
    rcases mem_dedup hd with ⟨c, _, rfl⟩
    exact canon_idem c
  have h2 : (([] : List (List String)) ++ dedup l).Nodup := by
    simpa using dedup_nodup l
  simpa using dedupAux_fixed h1 [] h2

/-- Claim C3 counterexample: the inputs `["PP_0001","PP_0002"]` and
`["PP_0001","PP_0001","PP_0002"]` have the same membership set (each is
a subset of the other), yet the Deduplicator keeps two entries, refuting
"any two input Complexes with the same membership set are represented by
exactly one entry". -/
theorem dedup_membership_set_two_entries :
    (["PP_0001", "PP_0001", "PP_0002"].all
      (fun x => ["PP_0001", "PP_0002"].contains x) = true) ∧
    (["PP_0001", "PP_0002"].all
      (fun x => ["PP_0001", "PP_0001", "PP_0002"].contains x) = true) ∧
    dedup [["PP_0001", "PP_0002"], ["PP_0001", "PP_0001", "PP_0002"]] =
      [["PP_0001", "PP_0002"], ["PP_0001", "PP_0001", "PP_0002"]] ∧
    (dedup [["PP_0001", "PP_0002"], ["PP_0001", "PP_0001", "PP_0002"]]).length = 2 :=
  ⟨by decide, by decide, by decide, by decide⟩

/-- Claim C3 (amended): two enumerated Complexes with the same members
counted with multiplicity (equal sorted forms; in particular permuted
orderings such as `(A,B)` and `(B,A)`) are represented in the deduplicated
collection by exactly one entry, their common lexicographically sorted
form, and the collection is the first-occurrence subsequence of the
canonized input. -/
theorem dedup_multiset_first_occurrence (l : List (List String))
    (c1 c2 : List String) (h1 : c1 ∈ l) (h2 : c2 ∈ l)
    (hp : canon c1 = canon c2) :
    canon c1 ∈ dedup l ∧ canon c2 ∈ dedup l ∧
      (dedup l).count (canon c1) = 1 ∧ (dedup l).count (canon c2) = 1 ∧
      dedup l = firstOcc [] (l.map canon) := by
  refine ⟨canon_mem_dedup h1, canon_mem_dedup h2, ?_, ?_, ?_⟩
  · exact count_one_of_nodup (dedup_nodup l) (canon_mem_dedup h1)
  · exact hp ▸ count_one_of_nodup (dedup_nodup l) (canon_mem_dedup h1)
  · simpa using dedupAux_firstOcc l []

theorem dedup_multiset_first_occurrence_case :
    canon ["PP_0002", "PP_0001"] ∈ dedup [["PP_0002", "PP_0001"], ["PP_0001", "PP_0002"]] ∧
    canon ["PP_0001", "PP_0002"] ∈ dedup [["PP_0002", "PP_0001"], ["PP_0001", "PP_0002"]] ∧
    (dedup [["PP_0002", "PP_0001"], ["PP_0001", "PP_0002"]]).count
      (canon ["PP_0002", "PP_0001"]) = 1 ∧
    (dedup [["PP_0002", "PP_0001"], ["PP_0001", "PP_0002"]]).count
      (canon ["PP_0001", "PP_0002"]) = 1 ∧
    dedup [["PP_0002", "PP_0001"], ["PP_0001", "PP_0002"]] =
      firstOcc [] ([["PP_0002", "PP_0001"], ["PP_0001", "PP_0002"]].map canon) :=
  dedup_multiset_first_occurrence _ ["PP_0002", "PP_0001"] ["PP_0001", "PP_0002"]
    (by decide) (by decide) (by decide)

/-- Claim C5 counterexample: with zero variable axes the cartesian-product
path produces one Complex (the flattened fixed matches), not none. -/
theorem cartExtend_zero_axes_nonempty :
    cartExtend [["PP_0001", "PP_0002"]] [] = [["PP_0001", "PP_0002"]] ∧
      cartExtend [["PP_0001", "PP_0002"]] [] ≠ [] :=
  ⟨rfl, by decide⟩

/-- Claim C5 (amended): with zero variable axes the cartesian-product path
produces exactly one Complex, consisting of the flattened fixed matches,
because the product of no axes is the single empty tuple. -/
theorem cartExtend_zero_axes_single (perma : List (List String)) :
    cartExtend perma [] = [perma.flatten] := rfl

/-- Claim C10: every entry of the deduplicated Complex Collection is stored
in lexicographically sorted order — the canonical form is the stored form —
so the downstream `'-'.join` filename stem lists the members in sorted
order. -/
theorem dedup_entries_sorted (l : List (List String)) (c : List String)
    (h : c ∈ dedup l) :
    SortedLe c ∧ canon c = c ∧ joinDash c = joinDash (canon c) := by
  rcases mem_dedup h with ⟨c0, _, rfl⟩
  exact ⟨sorted_insSort c0, canon_idem c0, by rw [canon_idem c0]⟩

theorem dedup_entries_sorted_case :
    SortedLe ["PP_0001", "PP_0002"] ∧
      canon ["PP_0001", "PP_0002"] = ["PP_0001", "PP_0002"] ∧
      joinDash ["PP_0001", "PP_0002"] = joinDash (canon ["PP_0001", "PP_0002"]) :=
  dedup_entries_sorted [["PP_0002", "PP_0001"]] ["PP_0001", "PP_0002"] (by decide)

/-- Claim C1: a rule containing AND and OR but no `') or'` and no `'or ('`
boundary (hence no `') or ('`) is handled by the Opt 2 branch, which splits
the rule on `' and '`, takes the match lists of the OR-containing segments
as variable axes and the matches of the OR-free segments as fixed, and
produces exactly one Complex per tuple of the cartesian product of the
variable axes, each tuple extended with the flattened fixed matches.
OR-presence for branch selection is the source's guard `' or ' in ID`. -/
theorem opt2_cartesian_product (st : CState) (ID : String)
    (hand : hasSub ID "and" = true) (hor : hasSub ID "or" = true)
    (hsp : hasSub ID " or " = true) (hb1 : hasSub ID ") or" = false)
    (hb2 : hasSub ID "or (" = false) :
    complexStep st ID = .ok { st with
      complexes := st.complexes ++
        (prodL (((splitStr ID " and ").filter (fun el => hasSub el "or")).map findall)).map
          (fun t => t ++
            (((splitStr ID " and ").filter
              (fun el => !(hasSub el "or"))).map findall).flatten),
      varProt :=
        some (((splitStr ID " and ").filter (fun el => hasSub el "or")).map findall) } := by
  unfold complexStep
  simp [hand, hor, hsp, hb1, hb2, opt2go_eq, cartExtend]

theorem opt2_cartesian_product_case :
    complexStep ⟨[], [], none⟩ "(PP_0001 or PP_0002) and PP_0003" =
      .ok ⟨[], [["PP_0001", "PP_0003"], ["PP_0002", "PP_0003"]],
           some [["PP_0001", "PP_0002"]]⟩ :=
  (opt2_cartesian_product ⟨[], [], none⟩ "(PP_0001 or PP_0002) and PP_0003"
    (by decide) (by decide) (by decide) (by decide) (by decide)).trans rfl

/-- Claim C2: a rule containing AND but not OR yields exactly one Complex
consisting of every identifier match of the rule in match order, and
contributes no monomers. -/
theorem opt1_single_complex_no_monomers (st : CState) (ms : List String) (ID : String)
    (hand : hasSub ID "and" = true) (hor : hasSub ID "or" = false) :
    complexStep st ID = .ok { st with complexes := st.complexes ++ [findall ID] } ∧
      monStep ms ID = ms := by
  constructor
  · unfold complexStep; simp [hand, hor]
  · unfold monStep; simp [hand]

theorem opt1_single_complex_no_monomers_case :
    complexStep ⟨[], [], none⟩ "PP_0001 and PP_0002" =
      .ok ⟨[], [["PP_0001", "PP_0002"]], none⟩ ∧
      monStep [] "PP_0001 and PP_0002" = [] :=
  ⟨((opt1_single_complex_no_monomers ⟨[], [], none⟩ [] "PP_0001 and PP_0002"
      (by decide) (by decide)).1).trans rfl,
   (opt1_single_complex_no_monomers ⟨[], [], none⟩ [] "PP_0001 and PP_0002"
      (by decide) (by decide)).2⟩

/-! ### Well-formedness of extracted identifiers -/

theorem tryPP_self {cs tok rest : List Char} (h : tryPP cs = some (tok, rest)) :
    tryTok tok = some (tok, []) := by
  unfold tryPP at h
  split at h
  · split at h
    · split at h
      · next hdig =>
        injection h with h1
        injection h1 with h2 h3
        subst h2
        simp [tryTok, tryPP, hdig]
      · cases h
    · cases h
  · cases h

theorem tryPW_self {cs tok rest : List Char} (h : tryPW cs = some (tok, rest)) :
    tryTok tok = some (tok, []) := by
  unfold tryPW at h
  split at h
  · next r =>
    split at h
    · cases h
    · next hne =>
      injection h with h1
      injection h1 with h2 h3
      subst h2
      have hta : ∀ x ∈ r.takeWhile Char.isDigit, Char.isDigit x = true :=
        fun x hx => List.mem_takeWhile_imp hx
      have ht1 : (r.takeWhile Char.isDigit).takeWhile Char.isDigit =
          r.takeWhile Char.isDigit :=
        List.takeWhile_eq_self_iff.mpr (by simpa using hta)
      have ht2 : (r.takeWhile Char.isDigit).dropWhile Char.isDigit = [] :=
        List.dropWhile_eq_nil_iff.mpr (by simpa using hta)
      simp [tryTok, tryPP, tryPW, ht1, ht2, hne]
  · cases h

theorem tryTok_self {cs tok rest : List Char} (h : tryTok cs = some (tok, rest)) :
    tryTok tok = some (tok, []) := by
  unfold tryTok at h
  cases htp : tryPP cs with
  | some r =>
    rw [htp] at h
    cases h
    exact tryPP_self htp
  | none =>
    rw [htp] at h
    exact tryPW_self h

theorem isWellFormed_of_tryTok {cs tok rest : List Char}
    (h : tryTok cs = some (tok, rest)) : isWellFormed ⟨tok⟩ = true := by
  show (match tryTok tok with | some (_, []) => true | _ => false) = true
  rw [tryTok_self h]

theorem scanTok_wf (fuel : Nat) : ∀ (cs : List Char) (m : String),
    m ∈ scanTok fuel cs → isWellFormed m = true := by
  induction fuel with
  | zero => intro cs m hm; simp [scanTok] at hm
  | succ f ih =>
    intro cs m hm
    cases cs with
    | nil => simp [scanTok] at hm
    | cons c t =>
      have hm' : m ∈ (match tryTok (c :: t) with
        | some (tok, rest) => (⟨tok⟩ : String) :: scanTok f rest
        | none => scanTok f t) := hm
      cases htk : tryTok (c :: t) with
      | some r =>
        rcases r with ⟨tok, rest⟩
        rw [htk] at hm'
        rcases List.mem_cons.mp hm' with rfl | hm2
        · exact isWellFormed_of_tryTok htk
        · exact ih rest m hm2
      | none =>
        rw [htk] at hm'
        exact ih t m hm'

theorem findall_wf (s : String) : ∀ m ∈ findall s, isWellFormed m = true :=
  fun m hm => scanTok_wf _ _ m hm

/-- All members of all complexes accumulated in the state are exact
identifier matches. -/
def WFComplexes (st : CState) : Prop :=
  ∀ c ∈ st.complexes, ∀ m ∈ c, isWellFormed m = true

theorem wf_append {l1 l2 : List (List String)}
    (h1 : ∀ c ∈ l1, ∀ m ∈ c, isWellFormed m = true)
    (h2 : ∀ c ∈ l2, ∀ m ∈ c, isWellFormed m = true) :
    ∀ c ∈ l1 ++ l2, ∀ m ∈ c, isWellFormed m = true := by
  intro c hc
  rcases List.mem_append.mp hc with h | h
  · exact h1 c h
  · exact h2 c h

theorem wf_single_findall (s : String) :
    ∀ c ∈ [findall s], ∀ m ∈ c, isWellFormed m = true := by
  intro c hc
  rw [List.mem_singleton.mp hc]
  exact findall_wf s

theorem wf_map_findall (segs : List String) :
    ∀ g ∈ segs.map findall, ∀ m ∈ g, isWellFormed m = true := by
  intro g hg
  obtain ⟨el, _, rfl⟩ := List.mem_map.mp hg
  exact findall_wf el

theorem wf_nil_groups :
    ∀ g ∈ ([] : List (List String)), ∀ m ∈ g, isWellFormed m = true := by
  intro g hg; cases hg

theorem mem_prodL {axes : List (List String)} : ∀ {t : List String}, t ∈ prodL axes →
    ∀ x ∈ t, ∃ a, a ∈ axes ∧ x ∈ a := by
  induction axes with
  | nil =>
    intro t ht x hx
    simp only [prodL, List.mem_singleton] at ht
    subst ht
    cases hx
  | cons a rest ih =>
    intro t ht x hx
    simp only [prodL, List.mem_flatten, List.mem_map] at ht
    obtain ⟨L, ⟨y, hya, rfl⟩, htL⟩ := ht
    obtain ⟨t', ht', rfl⟩ := List.mem_map.mp htL
    rcases List.mem_cons.mp hx with rfl | hx2
    · exact ⟨a, List.mem_cons_self a rest, hya⟩
    · obtain ⟨a', ha', hxa'⟩ := ih ht' x hx2
      exact ⟨a', List.mem_cons_of_mem _ ha', hxa'⟩

theorem cartExtend_wf {perma var : List (List String)}
    (hp : ∀ g ∈ perma, ∀ m ∈ g, isWellFormed m = true)
    (hv : ∀ g ∈ var, ∀ m ∈ g, isWellFormed m = true) :
    ∀ c ∈ cartExtend perma var, ∀ m ∈ c, isWellFormed m = true := by
  intro c hc m hm
  obtain ⟨t, ht, rfl⟩ := List.mem_map.mp hc
  rcases List.mem_append.mp hm with hmt | hmf
  · obtain ⟨a, ha, hma⟩ := mem_prodL ht m hmt
    exact hv a ha m hma
  · obtain ⟨g, hg, hmg⟩ := List.mem_flatten.mp hmf
    exact hp g hg m hmg

theorem opt2go_wf (segs : List String) :
    (∀ g ∈ (opt2go [] [] segs).1, ∀ m ∈ g, isWellFormed m = true) ∧
    (∀ g ∈ (opt2go [] [] segs).2, ∀ m ∈ g, isWellFormed m = true) := by
  rw [opt2go_eq]
  constructor
  · simpa using wf_map_findall ((segs.filter (fun el => !(hasSub el "or"))))
  · simpa using wf_map_findall ((segs.filter (fun el => hasSub el "or")))

theorem opt3go_wf (segs : List String) : ∀ (s s' : CState),
    WFComplexes s → opt3go s segs = .ok s' → WFComplexes s' := by
  induction segs with
  | nil => intro s s' hw h; cases h; exact hw
  | cons el rest ih =>
    intro s s' hw h
    simp only [opt3go] at h
    split at h
    · split at h
      · cases h
      · refine ih _ _ ?_ h
        exact fun c hc => hw c hc
    · split at h
      · refine ih _ _ ?_ h
        exact wf_append hw (cartExtend_wf (opt2go_wf _).1 (opt2go_wf _).2)
      · refine ih _ _ ?_ h
        exact wf_append hw (wf_single_findall el)

theorem opt4sub_wf (l : List String) : ∀ (s : CState),
    WFComplexes s → WFComplexes (opt4sub s l) := by
  induction l with
  | nil => intro s hw; exact hw
  | cons el2 rest ih =>
    intro s hw
    simp only [opt4sub]
    split
    · exact ih _ (wf_append hw (cartExtend_wf (wf_single_findall el2) wf_nil_groups))
    · exact ih _ (wf_append hw (cartExtend_wf wf_nil_groups (wf_single_findall el2)))

theorem opt4go_wf (l : List String) : ∀ (s : CState),
    WFComplexes s → WFComplexes (opt4go s l) := by
  induction l with
  | nil => intro s hw; exact hw
  | cons el rest ih =>
    intro s hw
    simp only [opt4go]
    split
    · exact ih _ (fun c hc => hw c hc)
    · split
      · exact ih _ (wf_append hw (wf_single_findall el))
      · split
        · exact ih _ (fun c hc => hw c hc)
        · exact ih _ (opt4sub_wf _ _ hw)

theorem complexStep_wf {st st' : CState} {ID : String}
    (hw : WFComplexes st) (h : complexStep st ID = .ok st') : WFComplexes st' := by
  unfold complexStep at h
  split at h
  · cases h; exact hw
  · split at h
    · cases h; exact wf_append hw (wf_single_findall ID)
    · split at h
      · cases h
        exact wf_append hw (cartExtend_wf (opt2go_wf _).1 (opt2go_wf _).2)
      · split at h
        · split at h
          · cases h; exact wf_append hw (wf_map_findall _)
          · exact opt3go_wf _ _ _ hw h
        · cases h
          exact opt4go_wf _ _ (fun c hc => hw c hc)

theorem complexLoop_wf (genes : List String) : ∀ (s s' : CState),
    WFComplexes s → complexLoop s genes = .ok s' → WFComplexes s' := by
  induction genes with
  | nil => intro s s' hw h; cases h; exact hw
  | cons ID rest ih =>
    intro s s' hw h
    simp only [complexLoop] at h
    cases hcs : complexStep s ID with
    | error e => rw [hcs] at h; cases h
    | ok s2 => rw [hcs] at h; exact ih s2 s' (complexStep_wf hw hcs) h

theorem pipeline_ok_parts {genes ms : List String} {coll : List (List String)}
    (hok : pipeline genes = .ok (ms, coll)) :
    ∃ st, complexLoop ⟨genes.foldl monStep [], [], none⟩ genes = .ok st ∧
      ms = st.monomers ∧
      coll = dedup (st.complexes.filter (fun c => !c.isEmpty)) := by
  unfold pipeline at hok
  cases hcl : complexLoop ⟨genes.foldl monStep [], [], none⟩ genes with
  | error e => rw [hcl] at hok; cases hok
  | ok st =>
    rw [hcl] at hok
    injection hok with h
    exact ⟨st, rfl, congrArg Prod.fst h.symm, congrArg Prod.snd h.symm⟩

/-- Claim C6 counterexample: the single rule `"PP_0001 and foo"` drives the
purified, deduplicated collection to contain the one-member Complex
`("PP_0001",)`, refuting "every Complex entry that reaches the final
collection has at least 2 distinct members". -/
theorem pipeline_singleton_complex :
    pipeline ["PP_0001 and foo"] = .ok ([], [["PP_0001"]]) ∧
      ((["PP_0001"] : List String)).length = 1 := ⟨rfl, rfl⟩

/-- Claim C6 (amended): every Complex entry that reaches the final
collection after data purification is non-empty (the purification filter
drops exactly the empty match lists); entries with a single member can
still occur. -/
theorem pipeline_complex_nonempty (genes : List String) (ms : List String)
    (coll : List (List String)) (c : List String)
    (hok : pipeline genes = .ok (ms, coll)) (hc : c ∈ coll) : c ≠ [] := by
  obtain ⟨st, _, -, hcoll⟩ := pipeline_ok_parts hok
  rw [hcoll] at hc
  obtain ⟨c0, hc0, rfl⟩ := mem_dedup hc
  have hne : c0 ≠ [] := by
    have := List.of_mem_filter hc0
    simpa using this
  intro hcon
  apply hne
  have hlen := length_canon c0
  rw [hcon] at hlen
  exact List.length_eq_zero.mp hlen.symm

theorem pipeline_complex_nonempty_case :
    pipeline ["PP_0001 and PP_0002"] = .ok ([], [["PP_0001", "PP_0002"]]) ∧
      (["PP_0001", "PP_0002"] : List String) ≠ [] :=
  ⟨rfl, pipeline_complex_nonempty ["PP_0001 and PP_0002"] [] [["PP_0001", "PP_0002"]]
    ["PP_0001", "PP_0002"] rfl (by decide)⟩

/-- Claim C7: evaluation at the failing input. With the rules `"PP_0001"`
and `"(PP_0001 and PP_0002) or PP_0001"`, the monomer list stores
`"PP_0001"` twice: the Opt 4 branch guard `if r not in monomers` compares
the list `r` against the string entries of `monomers` and never fires, so
the already-present identifier is re-inserted. -/
theorem pipeline_duplicate_monomer :
    pipeline ["PP_0001", "(PP_0001 and PP_0002) or PP_0001"] =
      .ok (["PP_0001", "PP_0001"], [["PP_0001", "PP_0002"]]) ∧
      ¬ (["PP_0001", "PP_0001"] : List String).Nodup := ⟨rfl, by decide⟩

/-- Claim C8: evaluation at the failing input. The single rule
`"(PP_0001 or PP_0002) or (PP_0003 and PP_0004)"` reaches the Opt 3
nested branch for a group with OR and no AND while `variable_prot` has
never been assigned, so the classifier raises `NameError` instead of
falling through to a catch-all. -/
theorem pipeline_opt3_name_error :
    pipeline ["(PP_0001 or PP_0002) or (PP_0003 and PP_0004)"] =
      .error "NameError: name variable_prot is not defined" := rfl

/-- Claim C9 counterexample: the rule `"PP_1234x"` puts the malformed
string `"PP_1234x"` into the output Monomer Set — the monomer branch keeps
the whole `' or '`-segment accepted by `re.match`, not just the match. -/
theorem pipeline_malformed_monomer :
    pipeline ["PP_1234x"] = .ok (["PP_1234x"], []) ∧
      isWellFormed "PP_1234x" = false := ⟨rfl, rfl⟩

/-- Claim C9 (amended): no malformed identifier ever appears in any output
Complex: every member of every entry of the final Complex Collection is
exactly an identifier-pattern match. (The Monomer Set has no such
guarantee: the no-AND branch stores whole stripped segments whose start
matches a pattern.) -/
theorem pipeline_complex_members_wellformed (genes : List String)
    (ms : List String) (coll : List (List String)) (c : List String) (m : String)
    (hok : pipeline genes = .ok (ms, coll)) (hc : c ∈ coll) (hm : m ∈ c) :
    isWellFormed m = true := by
  obtain ⟨st, hcl, -, hcoll⟩ := pipeline_ok_parts hok
  have hwf : WFComplexes st :=
    complexLoop_wf genes _ st (fun c hc => by cases hc) hcl
  rw [hcoll] at hc
  obtain ⟨c0, hc0, rfl⟩ := mem_dedup hc
  exact hwf c0 (List.mem_of_mem_filter hc0) m (mem_insSort.mp hm)

theorem pipeline_complex_members_wellformed_case :
    pipeline ["PP_0001 and PP_0002"] = .ok ([], [["PP_0001", "PP_0002"]]) ∧
      isWellFormed "PP_0001" = true :=
  ⟨rfl, pipeline_complex_members_wellformed ["PP_0001 and PP_0002"] []
    [["PP_0001", "PP_0002"]] ["PP_0001", "PP_0002"] "PP_0001" rfl (by decide) (by decide)⟩
